import Mathlib

/-!
Verification of the reservoir-sampler library (Algorithm L uniform samplers,
Algorithm A-ExpJ weighted samplers, and the linear single-element weighted
sampler) against its natural-language specification.

The C++ classes are shallowly embedded as Lean state machines:

* `RandType` (a floating-point type in the source, `float` by default) is
  modelled by `ℚ`; the transcendental operations `std::exp`, `std::log`,
  `std::pow`, the `std::floor`-then-`static_cast<size_t>` conversion and the
  way `std::uniform_real_distribution<RandType>(t, 1)` maps a unit draw into
  `(t, 1)` are abstracted into a record `RealOps` of rational functions, since
  every claim under verification is about state-machine structure rather than
  numeric accuracy.  Theorems quantify over all `RealOps`.
* The random generator `mRand` together with `mUniformDist` is modelled by
  `Rng`: a pre-decided stream of unit-interval draws (for `mUniformDist(mRand)`
  and the ad-hoc `uniform_real_distribution(t,1)(mRand)` calls) and a stream of
  raw integer draws (for bare `mRand()` calls).  Each draw consumes one entry,
  so "identical RNG state" is faithfully "identical remaining streams".
* The raw slot buffer `mElements` with its `mFilledElementsCount` constructed
  prefix is modelled as the list of constructed elements (slots `0..filled-1`);
  `mPriorityHeap` likewise as the list of its `filled` used entries.
-/

/-- Abstraction of the floating-point operations used by the samplers.
`drawIn t u` models how `std::uniform_real_distribution(t, 1)` turns the unit
draw `u` obtained from the generator into a value of `(t, 1)`; `floorNat x`
models `static_cast<size_t>(std::floor(x))`. -/
structure RealOps where
  exp : ℚ → ℚ
  log : ℚ → ℚ
  pow : ℚ → ℚ → ℚ
  floorNat : ℚ → ℕ
  drawIn : ℚ → ℚ → ℚ

/-- Model of the random generator state: the stream of future unit-interval
draws and the stream of future raw integer draws. -/
structure Rng where
  reals : List ℚ
  ints : List ℕ
deriving DecidableEq

/-- Consume one unit-interval draw, as `mUniformDist(mRand)` does. -/
def Rng.nextReal (g : Rng) : ℚ × Rng :=
  (g.reals.headD 0, ⟨g.reals.tail, g.ints⟩)

/-- Consume one raw integer draw, as a bare `mRand()` call does. -/
def Rng.nextInt (g : Rng) : ℕ × Rng :=
  (g.ints.headD 0, ⟨g.reals, g.ints.tail⟩)

/-- Consume one unit draw and map it into `(t, 1)`, as constructing and
invoking `std::uniform_real_distribution<RandType>(t, 1)` on `mRand` does. -/
def Rng.nextRealIn (ops : RealOps) (t : ℚ) (g : Rng) : ℚ × Rng :=
  let p := g.nextReal
  (ops.drawIn t p.1, p.2)

/-- One entry of `mPriorityHeap`: a key (field `priority` in the source) and
the reservoir slot holding the corresponding element (field `index`). -/
structure HeapItem where
  priority : ℚ
  index : ℕ
deriving DecidableEq

instance : Inhabited HeapItem := ⟨⟨0, 0⟩⟩

/-- Key stored at position `i` of the heap (out-of-range reads give the
default, they never occur on reachable states). -/
def getP (l : List HeapItem) (i : ℕ) : ℚ :=
  (l.getD i default).priority

/-- Parent position of heap position `i` in the implicit binary tree layout
used by `std::push_heap` and `std::pop_heap`. -/
def parentIdx (i : ℕ) : ℕ :=
  (i - 1) / 2

/-- Exchange the entries at positions `i` and `j` (identity when either
position is out of range). -/
def lswap (l : List α) (i j : ℕ) : List α :=
  match l[i]?, l[j]? with
  | some a, some b => (l.set i b).set j a
  | _, _ => l

/-- Fuelled sift-up loop of `std::push_heap` with the source's comparator
`a.priority > b.priority`, which makes the family of heap calls maintain a
binary min-heap on `priority`: the entry at `i` moves up while its parent has
a strictly larger key.  The fuel only bounds the recursion; `i` fuel always
suffices since the position strictly decreases. -/
def siftUpF : ℕ → List HeapItem → ℕ → List HeapItem
  | 0, l, _ => l
  | fuel + 1, l, i =>
    if i = 0 then l
    else if getP l i < getP l (parentIdx i) then
      siftUpF fuel (lswap l (parentIdx i) i) (parentIdx i)
    else l

/-- Sift-up entry `i`, with enough fuel to run to completion. -/
def siftUp (l : List HeapItem) (i : ℕ) : List HeapItem :=
  siftUpF i l i

/-- Model of `std::push_heap(first, first + n)` where the list is the range
`[first, first + n)`: the last entry is sifted up. -/
def pushHeap (l : List HeapItem) : List HeapItem :=
  siftUp l (l.length - 1)

/-- Fuelled sift-down loop restoring the min-heap property on the first `n`
entries when only the entry at `i` may be misplaced: `i` is exchanged with its
smallest-key child while that child's key is strictly smaller. -/
def siftDownF : ℕ → List HeapItem → ℕ → ℕ → List HeapItem
  | 0, l, _, _ => l
  | fuel + 1, l, i, n =>
    if 2 * i + 1 ≥ n then l
    else
      let c :=
        if 2 * i + 2 < n ∧ getP l (2 * i + 2) < getP l (2 * i + 1) then 2 * i + 2
        else 2 * i + 1
      if getP l c < getP l i then siftDownF fuel (lswap l i c) c n
      else l

/-- Sift-down the root within the first `n` entries, with enough fuel. -/
def siftDown (l : List HeapItem) (i n : ℕ) : List HeapItem :=
  siftDownF n l i n

/-- Model of `std::pop_heap(first, first + k)` with the source's comparator:
the root (smallest key) is exchanged with the entry at `k - 1` and the heap
property is restored on the first `k - 1` entries.  This captures the
behaviour `std::pop_heap` guarantees; the exact arrangement of entries beyond
the heap property is unspecified by the standard. -/
def popHeapK (l : List HeapItem) (k : ℕ) : List HeapItem :=
  siftDown (lswap l 0 (k - 1)) 0 (k - 1)

/-!
Weighted samplers (`ReservoirSamplerWeightedStatic` of
`reservoir_sampler_weighted_static.h` and `src/unnamed/part_000`, and the
sampling logic of the dynamic `ReservoirSamplerWeighted` of
`src/unnamed/part_004`, whose `emplace` body is identical after its lazy
`allocateData` call).  The compile-time/run-time capacity `SamplesCount` is
the parameter `k` of each operation.
-/

/-- State of a weighted sampler: `mWeightJumpOver`, the generator, the used
prefix of `mPriorityHeap` (length `mFilledElementsCount`) and the constructed
prefix of `mElements` (same length). -/
structure WState (T : Type) where
  weightJumpOver : ℚ
  rng : Rng
  heap : List HeapItem
  elements : List T
deriving DecidableEq

/-- Freshly constructed weighted sampler: `mWeightJumpOver` is
value-initialized to zero and no slot is filled. -/
def initW (g : Rng) : WState T :=
  ⟨0, g, [], []⟩

/-- Model of `insertSorted`: write the new heap entry `(r, filled)` one past
the used prefix, `std::push_heap` over the grown prefix, construct the new
element in slot `filled` and increment `mFilledElementsCount`. -/
def insertSorted (s : WState T) (r : ℚ) (x : T) : WState T :=
  { s with
    heap := pushHeap (s.heap ++ [⟨r, s.elements.length⟩]),
    elements := s.elements ++ [x] }

/-- Model of `insertSortedRemoveFirst`: `std::pop_heap` over the `k` entries,
read the evicted slot index at position `k - 1`, overwrite that position with
the new key paired with the same slot index, `std::push_heap`, and place the
new element into the freed slot. -/
def insertSortedRemoveFirst (k : ℕ) (s : WState T) (r : ℚ) (x : T) : WState T :=
  let h1 := popHeapK s.heap k
  let oldElementIdx := (h1.getD (k - 1) default).index
  { s with
    heap := pushHeap (h1.set (k - 1) ⟨r, oldElementIdx⟩),
    elements := s.elements.set oldElementIdx x }

/-- Model of the weighted `emplace` (Algorithm A-ExpJ): elements with
non-positive weight are ignored; while filling, the key `u^(1/w)` is drawn and
the element inserted, and when the reservoir becomes full the weight budget is
initialized to `log u' / log root`; once full, the budget is decreased by `w`
and, when exhausted, the root is evicted for an element with a fresh key drawn
from `(root^w, 1)` and the budget is refreshed. -/
def emplaceW (ops : RealOps) (k : ℕ) (s : WState T) (w : ℚ) (x : T) : WState T :=
  if 0 < w then
    if s.elements.length < k then
      let p := s.rng.nextReal
      let r := ops.pow p.1 (1 / w)
      let s1 := insertSorted { s with rng := p.2 } r x
      if s1.elements.length = k then
        let q := s1.rng.nextReal
        { s1 with weightJumpOver := ops.log q.1 / ops.log (getP s1.heap 0), rng := q.2 }
      else s1
    else
      let wj := s.weightJumpOver - w
      if wj ≤ 0 then
        let t := ops.pow (getP s.heap 0) w
        let p := s.rng.nextRealIn ops t
        let r := ops.pow p.1 (1 / w)
        let s1 := insertSortedRemoveFirst k { s with weightJumpOver := wj, rng := p.2 } r x
        let q := s1.rng.nextReal
        { s1 with weightJumpOver := ops.log q.1 / ops.log (getP s1.heap 0), rng := q.2 }
      else { s with weightJumpOver := wj }
  else s

/-- Model of `willNextBeConsidered` / `willNextElementBeConsidered` of the
weighted samplers. -/
def willNextW (s : WState T) (w : ℚ) : Prop :=
  s.weightJumpOver - w ≤ 0

instance (s : WState T) (w : ℚ) : Decidable (willNextW s w) :=
  inferInstanceAs (Decidable (_ ≤ _))

/-- Model of `addDummyElement` / `skipNextElement` of the weighted samplers:
the budget is decreased by the skipped weight. -/
def skipNextW (s : WState T) (w : ℚ) : WState T :=
  { s with weightJumpOver := s.weightJumpOver - w }

/-- Model of `reset` of the weighted samplers: every constructed element is
destroyed, the budget is zeroed, the filled count is zeroed (so no heap entry
remains in use); the generator keeps its state. -/
def resetW (s : WState T) : WState T :=
  ⟨0, s.rng, [], []⟩

/-- Model of `getResult`: the borrowed view over the `filled` slots,
materialized as the list of retained elements. -/
def getResultW (s : WState T) : List T :=
  s.elements

/-- Model of the weighted `consumeResult`: the retained elements are moved
into the returned vector in slot order and the sampler is `reset`. -/
def consumeResultW (s : WState T) : List T × WState T :=
  (s.elements, resetW s)

/-- Model of `getResultSize` of the weighted static sampler. -/
def getResultSizeW (s : WState T) : ℕ :=
  s.elements.length

/-- Model of the weighted `consumeResultTo(outRawData)`: exactly the `filled`
elements are moved into the caller's buffer (returned here as a list) and the
sampler is `reset`. -/
def consumeResultToW (s : WState T) : List T × WState T :=
  (s.elements, resetW s)

/-- Model of the copy-assignment `operator=` of `ReservoirSamplerWeightedStatic`
in `src/unnamed/part_000` (lines 110-122): the destination is `reset`, then
`mWeightJumpOver`, `mFilledElementsCount`, the heap entries and the elements
are copied from the source; `mRand` and `mUniformDist` are not copied, so the
destination keeps its own generator state. -/
def assignW (dst src : WState T) : WState T :=
  ⟨src.weightJumpOver, dst.rng, src.heap, src.elements⟩

/-- State of the heap-allocating `ReservoirSamplerWeighted`
(`src/unnamed/part_004`): the sampling state plus whether the single lazy
buffer allocation has happened (`mData != nullptr`). -/
structure WDynState (T : Type) where
  toW : WState T
  dataAllocated : Bool
deriving DecidableEq

/-- Model of the dynamic weighted `emplace` (`src/unnamed/part_004` lines
181-214): `allocateData()` runs first whenever the buffer is still
unallocated — before the weight is even inspected — and the rest of the body
is the shared A-ExpJ step. -/
def emplaceWDyn (ops : RealOps) (k : ℕ) (s : WDynState T) (w : ℚ) (x : T) : WDynState T :=
  ⟨emplaceW ops k s.toW w x, true⟩

/-!
Uniform samplers (`ReservoirSamplerStatic` of `reservoir_sampler_static.h`
and the dynamic `ReservoirSampler` of `src/unnamed/part_002`, whose `emplace`
body is identical after its lazy `allocateData` call).
-/

/-- State of a uniform Algorithm L sampler: `mIndexesToJumpOver`,
`mWeightJumpOver`, the generator, and the constructed prefix of `mElements`
(length `mFilledElementsCount`). -/
structure LState (T : Type) where
  indexesToJumpOver : ℕ
  weightJumpOver : ℚ
  rng : Rng
  elements : List T
deriving DecidableEq

/-- Freshly constructed uniform sampler. -/
def initL (g : Rng) : LState T :=
  ⟨0, 0, g, []⟩

/-- Model of the uniform `emplace` (Algorithm L): while filling, the element
goes into slot `filled`, and when the reservoir becomes full
`mWeightJumpOver` and `mIndexesToJumpOver` are initialized from two fresh
draws; once full, a zero skip count triggers `replaceElement` (one raw
`mRand()` call choosing slot `mRand() % k`) followed by the `w` update and the
skip-count refresh, and a positive skip count is merely decremented. -/
def emplaceL (ops : RealOps) (k : ℕ) (s : LState T) (x : T) : LState T :=
  if s.elements.length < k then
    let s1 := { s with elements := s.elements ++ [x] }
    if s1.elements.length = k then
      let p := s1.rng.nextReal
      let w := ops.exp (ops.log p.1 / (k : ℚ))
      let q := p.2.nextReal
      { s1 with
        weightJumpOver := w,
        indexesToJumpOver := ops.floorNat (ops.log q.1 / ops.log (1 - w)),
        rng := q.2 }
    else s1
  else
    if s.indexesToJumpOver = 0 then
      let i := s.rng.nextInt
      let s1 := { s with elements := s.elements.set (i.1 % k) x, rng := i.2 }
      let p := s1.rng.nextReal
      let w := s.weightJumpOver * ops.exp (ops.log p.1 / (k : ℚ))
      let q := p.2.nextReal
      { s1 with
        weightJumpOver := w,
        indexesToJumpOver := s.indexesToJumpOver + ops.floorNat (ops.log q.1 / ops.log (1 - w)),
        rng := q.2 }
    else
      { s with indexesToJumpOver := s.indexesToJumpOver - 1 }

/-- Model of `reset` of the uniform samplers. -/
def resetL (s : LState T) : LState T :=
  ⟨0, 0, s.rng, []⟩

/-- Model of `getResult` of the uniform samplers, materialized. -/
def getResultL (s : LState T) : List T :=
  s.elements

/-- Model of the uniform `consumeResult`: the retained elements are moved into
the returned vector in slot order and the sampler is `reset`. -/
def consumeResultL (s : LState T) : List T × LState T :=
  (s.elements, resetL s)

/-- Model of `getResultSize` of `ReservoirSamplerStatic`. -/
def getResultSizeL (s : LState T) : ℕ :=
  s.elements.length

/-- Model of `consumeResultTo(outRawData)` of `ReservoirSamplerStatic`. -/
def consumeResultToL (s : LState T) : List T × LState T :=
  (s.elements, resetL s)

/-- Model of the copy constructor of `ReservoirSamplerStatic`
(`reservoir_sampler_static.h` lines 67-79): every field is copied —
`mIndexesToJumpOver`, `mWeightJumpOver`, `mRand` (the full generator state),
`mUniformDist`, `mFilledElementsCount` — and each constructed element is
copy-constructed into the fresh buffer. -/
def copyCtorL (s : LState T) : LState T :=
  ⟨s.indexesToJumpOver, s.weightJumpOver, s.rng, s.elements⟩

/-- Model of the copy-assignment `operator=` of `ReservoirSamplerStatic`
(`reservoir_sampler_static.h` lines 96-108): the destination is `reset`, then
`mIndexesToJumpOver`, `mWeightJumpOver`, `mFilledElementsCount` and the
elements are copied from the source; `mRand` and `mUniformDist` are not
copied, so the destination keeps its own generator state. -/
def assignL (dst src : LState T) : LState T :=
  ⟨src.indexesToJumpOver, src.weightJumpOver, dst.rng, src.elements⟩

/-!
Linear single-element weighted sampler (`ReservoirSamplerLinear` of
`src/unnamed/part_001`).  `WeightType` is its default `unsigned int`,
modelled by `ℕ`.
-/

/-- State of `ReservoirSamplerLinear`: `mWeightSum`, `mSelectedElement` and
the generator. -/
structure LinState (T : Type) where
  weightSum : ℕ
  selected : Option T
  rng : Rng
deriving DecidableEq

/-- Freshly constructed linear sampler. -/
def initLin (g : Rng) : LinState T :=
  ⟨0, none, g⟩

/-- Model of the linear `emplace` (`src/unnamed/part_001` lines 105-125):
non-positive weights return immediately; otherwise the weight sum grows, an
empty `mSelectedElement` stores the element with no generator call, and an
occupied one is replaced exactly when `mRand() % mWeightSum < weight`. -/
def emplaceLinear (s : LinState T) (w : ℕ) (x : T) : LinState T :=
  if w ≤ 0 then s
  else
    let sum := s.weightSum + w
    match s.selected with
    | none => { s with weightSum := sum, selected := some x }
    | some _ =>
      let i := s.rng.nextInt
      if i.1 % sum < w then ⟨sum, some x, i.2⟩
      else { s with weightSum := sum, rng := i.2 }

/-- Model of `reset` of the linear sampler. -/
def resetLin (s : LinState T) : LinState T :=
  ⟨0, none, s.rng⟩

/-- Model of `getResult` of the linear sampler: a borrow of
`mSelectedElement`. -/
def getResultLin (s : LinState T) : Option T :=
  s.selected

/-- Model of the linear `consumeResult` (`src/unnamed/part_001` lines 91-95):
`mWeightSum` is zeroed and `std::move(mSelectedElement)` is returned.  Moving
from the optional moves its payload but leaves the optional itself engaged, so
the post-state keeps `mSelectedElement` occupied (the moved-from payload is
modelled by the original value). -/
def consumeResultLin (s : LinState T) : Option T × LinState T :=
  (s.selected, { s with weightSum := 0 })

/-!
Claim-side formulations.  These two definitions follow the wording of the
specification (not the source) and are compared with the source-side
definitions by the refinement theorems below.
-/

/-- Sampling phase of Algorithm L as the specification words it: when the skip
counter is zero, the slot at `rng() mod k` is replaced by the new element,
then `w` is multiplied by `exp(ln U1 / k)` and the skip counter is set to
`floor(ln U2 / ln(1 - w))` using two fresh uniform draws; otherwise the skip
counter is decremented and the reservoir is untouched. -/
def algLSamplingStep (ops : RealOps) (k : ℕ) (s : LState T) (x : T) : LState T :=
  if s.indexesToJumpOver = 0 then
    let i := s.rng.nextInt
    let newElements := s.elements.set (i.1 % k) x
    let p := i.2.nextReal
    let w := s.weightJumpOver * ops.exp (ops.log p.1 / (k : ℚ))
    let q := p.2.nextReal
    ⟨ops.floorNat (ops.log q.1 / ops.log (1 - w)), w, q.2, newElements⟩
  else
    { s with indexesToJumpOver := s.indexesToJumpOver - 1 }

/-- Transition of Algorithm L as the specification words it: the element is
appended (making the reservoir hold `k` elements), then `w` is initialized to
`exp(ln U1 / k)` and the skip counter to `floor(ln U2 / ln(1 - w))` from two
fresh uniform draws. -/
def algLTransition (ops : RealOps) (k : ℕ) (s : LState T) (x : T) : LState T :=
  let p := s.rng.nextReal
  let w := ops.exp (ops.log p.1 / (k : ℚ))
  let q := p.2.nextReal
  ⟨ops.floorNat (ops.log q.1 / ops.log (1 - w)), w, q.2, s.elements ++ [x]⟩

/-- Behaviour of `ReservoirSamplerLinear::sample` as the specification words
it: return unchanged if `w ≤ 0`; add `w` to the weight sum; if nothing is
stored yet, store the element without touching the generator; otherwise draw
`r = rng() mod weight_sum` and replace the stored element exactly when
`r < w`. -/
def linearSampleSpec (s : LinState T) (w : ℕ) (x : T) : LinState T :=
  if w ≤ 0 then s
  else
    let newSum := s.weightSum + w
    if s.selected.isNone then
      ⟨newSum, some x, s.rng⟩
    else
      let i := s.rng.nextInt
      let r := i.1 % newSum
      if r < w then ⟨newSum, some x, i.2⟩ else ⟨newSum, s.selected, i.2⟩

/-!
Concrete instances used by the witnesses and counterexamples.
-/

/-- Concrete interpretation of the abstracted floating-point operations, used
only to evaluate the theorems at concrete inputs. -/
def ops0 : RealOps :=
  ⟨fun x => x, fun x => x, fun a b => a * b, fun _ => 0, fun t u => t + u⟩

/-- Concrete generator state for witnesses. -/
def g0 : Rng :=
  ⟨[1/2, 4/5, 1/3, 1/4, 1/5, 1/6], [3, 7, 9]⟩

/-- Concrete generator state differing from `g0` in its future integer
draws. -/
def g1 : Rng :=
  ⟨[1/2, 4/5, 1/3, 1/4, 1/5, 1/6], [5, 1, 2]⟩

/-- C1: once the reservoir of a uniform sampler holds `k` elements, `emplace`
is exactly the sampling phase of Algorithm L as the specification states it,
and the call that first fills the reservoir performs exactly the stated
transition initialization of `w` and the skip counter. -/
theorem uniform_emplace_is_algL (ops : RealOps) (k : ℕ) (s : LState T) (x : T) :
    (s.elements.length = k → emplaceL ops k s x = algLSamplingStep ops k s x) ∧
    (s.elements.length + 1 = k → emplaceL ops k s x = algLTransition ops k s x) := by
  constructor
  · intro hfull
    unfold emplaceL algLSamplingStep
    rw [if_neg (by omega)]
    by_cases h0 : s.indexesToJumpOver = 0
    · cases s with
      | mk a b c d => simp only at h0; subst h0; simp
    · simp [h0]
  · intro hpre
    unfold emplaceL algLTransition
    rw [if_pos (by omega)]
    cases s with
    | mk a b c d =>
      simp only [List.length_append, List.length_cons, List.length_nil]
      rw [if_pos (by simpa using hpre)]

/-- Witness for C1: both parts of the theorem evaluated at concrete full and
almost-full states. -/
theorem uniform_emplace_is_algL_witness :
    ((⟨0, 1/2, g0, [42]⟩ : LState ℕ).elements.length = 1 ∧
      emplaceL ops0 1 ⟨0, 1/2, g0, [42]⟩ 99 = algLSamplingStep ops0 1 ⟨0, 1/2, g0, [42]⟩ 99) ∧
    ((initL g0 : LState ℕ).elements.length + 1 = 1 ∧
      emplaceL ops0 1 (initL g0) 99 = algLTransition ops0 1 (initL g0) 99) :=
  ⟨⟨rfl, (uniform_emplace_is_algL ops0 1 ⟨0, 1/2, g0, [42]⟩ 99).1 rfl⟩,
   ⟨rfl, (uniform_emplace_is_algL ops0 1 (initL g0) 99).2 rfl⟩⟩

/-- C9: the linear sampler's `emplace` coincides, at every state and input,
with the specification's description of `sample(w, element)`; in particular
the very first stored element consumes no generator draw. -/
theorem linear_emplace_is_spec (s : LinState T) (w : ℕ) (x : T) :
    emplaceLinear s w x = linearSampleSpec s w x := by
  cases s with
  | mk sum sel g =>
    unfold emplaceLinear linearSampleSpec
    by_cases hw : w ≤ 0
    · simp [hw]
    · cases sel with
      | none => simp [hw]
      | some a => simp [hw]

/-- Counterexample for C6: in the heap-allocating weighted sampler, offering a
zero-weight element to a sampler whose buffer is not yet allocated still
performs the lazy allocation, so the entire state is not unchanged. -/
theorem weight_nonpositive_not_fully_ignored_dyn :
    emplaceWDyn ops0 1 ⟨initW g0, false⟩ 0 (17 : ℕ) ≠ ⟨initW g0, false⟩ := by
  intro h
  exact Bool.noConfusion (congrArg WDynState.dataAllocated h)

/-- C6 (amended): offering an element with weight `≤ 0` leaves every piece of
sampling state (reservoir, heap, budget, filled count, generator) of the
weighted samplers unchanged and is not an error; in the static weighted and
linear samplers the state is entirely unchanged, while the heap-allocating
weighted sampler may additionally perform its lazy buffer allocation, which
happens before the weight is inspected. -/
theorem weight_nonpositive_ignored (ops : RealOps) (k : ℕ) :
    (∀ (T : Type) (s : WState T) (w : ℚ) (x : T), w ≤ 0 → emplaceW ops k s w x = s) ∧
    (∀ (T : Type) (s : WDynState T) (w : ℚ) (x : T), w ≤ 0 →
      emplaceWDyn ops k s w x = ⟨s.toW, true⟩) ∧
    (∀ (T : Type) (s : LinState T) (w : ℕ) (x : T), w ≤ 0 → emplaceLinear s w x = s) := by
  refine ⟨fun T s w x hw => ?_, fun T s w x hw => ?_, fun T s w x hw => ?_⟩
  · unfold emplaceW
    rw [if_neg (not_lt.mpr hw)]
  · unfold emplaceWDyn emplaceW
    rw [if_neg (not_lt.mpr hw)]
  · unfold emplaceLinear
    rw [if_pos hw]

/-- Witness for C6: the amended theorem evaluated at weight `-1` for the
rational-weighted samplers and weight `0` for the integer-weighted linear
sampler. -/
theorem weight_nonpositive_ignored_witness :
    ((-1 : ℚ) ≤ 0 ∧ emplaceW ops0 2 (initW g0 : WState ℕ) (-1) 5 = initW g0) ∧
    ((-1 : ℚ) ≤ 0 ∧ emplaceWDyn ops0 2 (⟨initW g0, true⟩ : WDynState ℕ) (-1) 5 = ⟨initW g0, true⟩) ∧
    ((0 : ℕ) ≤ 0 ∧ emplaceLinear (initLin g0 : LinState ℕ) 0 5 = initLin g0) :=
  ⟨⟨by norm_num, (weight_nonpositive_ignored ops0 2).1 ℕ (initW g0) (-1) 5 (by norm_num)⟩,
   ⟨by norm_num, (weight_nonpositive_ignored ops0 2).2.1 ℕ ⟨initW g0, true⟩ (-1) 5 (by norm_num)⟩,
   ⟨le_refl 0, (weight_nonpositive_ignored ops0 2).2.2 ℕ (initLin g0) 0 5 (le_refl 0)⟩⟩

/-- Counterexample for C7: for the linear sampler, `consumeResult` is not the
materialization of `getResult` followed by `reset` — after consuming, the
moved-from `mSelectedElement` is still engaged, while `reset` disengages it.
The state is reached by sampling one element into a fresh sampler. -/
theorem linear_consume_differs_from_reset :
    consumeResultLin (emplaceLinear (initLin g0) 1 (5 : ℕ)) ≠
      (getResultLin (emplaceLinear (initLin g0) 1 (5 : ℕ)),
        resetLin (emplaceLinear (initLin g0) 1 (5 : ℕ))) := by
  intro h
  have h2 := congrArg (fun p => p.2.selected) h
  simp [consumeResultLin, resetLin, emplaceLinear, initLin] at h2

/-- C7 (amended): for the uniform and weighted samplers `consumeResult` is
exactly the materialization of `getResult` followed by `reset`; for the linear
sampler it returns the `getResult` view but the post-state only zeroes the
weight sum and keeps `mSelectedElement` engaged with the moved-from payload,
so it differs from the `reset` state whenever an element is stored. -/
theorem consume_is_peek_then_reset :
    (∀ (T : Type) (s : LState T), consumeResultL s = (getResultL s, resetL s)) ∧
    (∀ (T : Type) (s : WState T), consumeResultW s = (getResultW s, resetW s)) ∧
    (∀ (T : Type) (s : LinState T),
      consumeResultLin s = (getResultLin s, ⟨0, s.selected, s.rng⟩)) :=
  ⟨fun _ _ => rfl, fun _ _ => rfl, fun _ _ => rfl⟩

/-- Counterexample for C8: after copy assignment the destination keeps its own
generator state, so the assigned-to sampler's next raw draw differs from the
draw the source would produce. -/
theorem assign_rng_not_duplicated :
    ((assignL (initL g1 : LState ℕ) (initL g0)).rng.nextInt).1 ≠
      ((initL g0 : LState ℕ).rng.nextInt).1 := by
  decide

/-- C8 (amended): the copy constructor deep-copies the retained elements and
duplicates the full generator state — the copy is indistinguishable from the
original, so it subsequently produces the same draws — while the copy
assignment operators (uniform static and weighted static) copy the retained
elements and sampling counters but not the generator, so the destination keeps
its own RNG state. -/
theorem copy_semantics :
    (∀ (T : Type) (s : LState T), copyCtorL s = s) ∧
    (∀ (T : Type) (ops : RealOps) (k : ℕ) (s : LState T) (x : T),
      emplaceL ops k (copyCtorL s) x = emplaceL ops k s x) ∧
    (∀ (T : Type) (d s : LState T),
      (assignL d s).elements = s.elements ∧
      (assignL d s).indexesToJumpOver = s.indexesToJumpOver ∧
      (assignL d s).weightJumpOver = s.weightJumpOver ∧
      (assignL d s).rng = d.rng) ∧
    (∀ (T : Type) (d s : WState T),
      (assignW d s).elements = s.elements ∧
      (assignW d s).heap = s.heap ∧
      (assignW d s).weightJumpOver = s.weightJumpOver ∧
      (assignW d s).rng = d.rng) :=
  ⟨fun _ _ => rfl, fun _ _ _ _ _ => rfl,
   fun _ _ _ => ⟨rfl, rfl, rfl, rfl⟩, fun _ _ _ => ⟨rfl, rfl, rfl, rfl⟩⟩

/-- C10: `consumeResultTo` move-writes exactly `getResultSize()` elements into
the caller's buffer, produces the same elements as `consumeResult`, and leaves
the sampler in the `reset` state, which is the freshly-constructed state with
the advanced generator. -/
theorem consumeResultTo_spec :
    (∀ (T : Type) (s : LState T),
      (consumeResultToL s).1.length = getResultSizeL s ∧
      (consumeResultToL s).1 = (consumeResultL s).1 ∧
      (consumeResultToL s).2 = (consumeResultL s).2 ∧
      (consumeResultToL s).2 = initL s.rng) ∧
    (∀ (T : Type) (s : WState T),
      (consumeResultToW s).1.length = getResultSizeW s ∧
      (consumeResultToW s).1 = (consumeResultW s).1 ∧
      (consumeResultToW s).2 = (consumeResultW s).2 ∧
      (consumeResultToW s).2 = initW s.rng) :=
  ⟨fun _ _ => ⟨rfl, rfl, rfl, rfl⟩, fun _ _ => ⟨rfl, rfl, rfl, rfl⟩⟩

/-- The uniform `emplace` grows the filled count by one while below capacity
and keeps it constant once at capacity. -/
theorem length_emplaceL (ops : RealOps) (k : ℕ) (s : LState T) (x : T) :
    (emplaceL ops k s x).elements.length =
      if s.elements.length < k then s.elements.length + 1 else s.elements.length := by
  unfold emplaceL
  by_cases h1 : s.elements.length < k
  · simp only [h1, if_true]
    by_cases h2 : s.elements.length + 1 = k <;> simp [h2]
  · simp only [h1, if_false]
    by_cases h2 : s.indexesToJumpOver = 0 <;> simp [h2]

/-- The weighted `emplace` grows the filled count by one exactly when the
weight is positive and the reservoir is below capacity. -/
theorem length_emplaceW (ops : RealOps) (k : ℕ) (s : WState T) (w : ℚ) (x : T) :
    (emplaceW ops k s w x).elements.length =
      if 0 < w ∧ s.elements.length < k then s.elements.length + 1
      else s.elements.length := by
  unfold emplaceW insertSorted insertSortedRemoveFirst
  by_cases hw : 0 < w
  · by_cases h1 : s.elements.length < k
    · simp only [hw, h1, and_self, if_true]
      by_cases h2 : s.elements.length + 1 = k <;> simp [h2]
    · simp only [hw, h1, and_false, if_true, if_false]
      by_cases h2 : s.weightJumpOver - w ≤ 0 <;> simp [h2]
  · simp [hw]

/-- Filled count after folding a stream into a uniform sampler. -/
theorem foldl_length_L (ops : RealOps) (k : ℕ) :
    ∀ (stream : List T) (s : LState T), s.elements.length ≤ k →
      (stream.foldl (fun t x => emplaceL ops k t x) s).elements.length =
        min (s.elements.length + stream.length) k := by
  intro stream
  induction stream with
  | nil => intro s hs; simpa using (Nat.min_eq_left hs).symm
  | cons x rest ih =>
    intro s hs
    have hlen := length_emplaceL ops k s x
    have hle : (emplaceL ops k s x).elements.length ≤ k := by
      rw [hlen]; split <;> omega
    simp only [List.foldl_cons, List.length_cons]
    rw [ih _ hle, hlen]
    split <;> omega

/-- Filled count after folding a weighted stream into a weighted sampler. -/
theorem foldl_length_W (ops : RealOps) (k : ℕ) :
    ∀ (stream : List (ℚ × T)) (s : WState T), s.elements.length ≤ k →
      (stream.foldl (fun t p => emplaceW ops k t p.1 p.2) s).elements.length =
        min (s.elements.length + stream.countP (fun p => decide (0 < p.1))) k := by
  intro stream
  induction stream with
  | nil => intro s hs; simpa using (Nat.min_eq_left hs).symm
  | cons p rest ih =>
    intro s hs
    have hlen := length_emplaceW ops k s p.1 p.2
    have hle : (emplaceW ops k s p.1 p.2).elements.length ≤ k := by
      rw [hlen]; split <;> omega
    simp only [List.foldl_cons, List.countP_cons]
    rw [ih _ hle, hlen]
    by_cases h1 : 0 < p.1 <;> by_cases h2 : s.elements.length < k <;>
      simp [h1, h2] <;> omega

/-- The linear `emplace` occupies `mSelectedElement` exactly when the weight
is positive, and never vacates it. -/
theorem isSome_emplaceLinear (s : LinState T) (w : ℕ) (x : T) :
    (emplaceLinear s w x).selected.isSome = (s.selected.isSome || decide (0 < w)) := by
  unfold emplaceLinear
  by_cases hw : w ≤ 0
  · have : ¬ 0 < w := by omega
    simp [hw, this]
  · have : 0 < w := by omega
    cases hsel : s.selected with
    | none => simp [hw, hsel, this]
    | some a =>
      simp only [hw, if_false, hsel]
      split <;> simp [this]

/-- Occupancy of the linear sampler after folding a stream. -/
theorem foldl_size_Lin :
    ∀ (stream : List (ℕ × T)) (s : LinState T),
      (if (stream.foldl (fun t p => emplaceLinear t p.1 p.2) s).selected.isSome then 1 else 0) =
        min ((if s.selected.isSome then 1 else 0) + stream.countP (fun p => decide (0 < p.1))) 1 := by
  intro stream
  induction stream with
  | nil =>
    intro s
    cases h : s.selected.isSome <;> simp [h]
  | cons p rest ih =>
    intro s
    simp only [List.foldl_cons, List.countP_cons]
    rw [ih]
    rw [isSome_emplaceLinear]
    cases h1 : s.selected.isSome <;> by_cases h2 : 0 < p.1 <;> simp [h1, h2]

/-- C2: for every sampler variant, capacity `k > 0` and offered stream, the
result size after the whole stream is `min(n_positive, k)`, where
`n_positive` counts the offered elements with positive weight and every
element counts for the uniform samplers (the linear sampler has capacity
one). -/
theorem result_size_eq_min (ops : RealOps) (k : ℕ) (_hk : 0 < k) :
    (∀ (T : Type) (g : Rng) (stream : List T),
      (stream.foldl (fun s x => emplaceL ops k s x) (initL g)).elements.length =
        min stream.length k) ∧
    (∀ (T : Type) (g : Rng) (stream : List (ℚ × T)),
      (stream.foldl (fun s p => emplaceW ops k s p.1 p.2) (initW g)).elements.length =
        min (stream.countP (fun p => decide (0 < p.1))) k) ∧
    (∀ (T : Type) (g : Rng) (stream : List (ℕ × T)),
      (if (stream.foldl (fun s p => emplaceLinear s p.1 p.2) (initLin g)).selected.isSome
        then 1 else 0) =
        min (stream.countP (fun p => decide (0 < p.1))) 1) := by
  refine ⟨fun T g stream => ?_, fun T g stream => ?_, fun T g stream => ?_⟩
  · have h := foldl_length_L ops k stream (initL g) (by simp [initL])
    simpa [initL] using h
  · have h := foldl_length_W ops k stream (initW g) (by simp [initW])
    simpa [initW] using h
  · have h := foldl_size_Lin stream (initLin g)
    simpa [initLin] using h

/-- Witness for C2: the theorem evaluated at capacity `2` with concrete
three-element streams (two of the weighted elements non-positive). -/
theorem result_size_eq_min_witness :
    0 < 2 ∧
    (([10, 11, 12].foldl (fun s x => emplaceL ops0 2 s x) (initL g0)).elements.length =
      min 3 2) ∧
    (([((1 : ℚ), 10), (0, 11), (-1, 12)].foldl
        (fun s p => emplaceW ops0 2 s p.1 p.2) (initW g0)).elements.length =
      min ([((1 : ℚ), 10), (0, 11), (-1, 12)].countP (fun p => decide (0 < p.1))) 2) ∧
    ((if (([(1, 10), (0, 11), (3, 12)].foldl
          (fun s p => emplaceLinear s p.1 p.2) (initLin g0)).selected.isSome : Bool)
        then 1 else 0) =
      min ([((1 : ℕ), (10 : ℕ)), (0, 11), (3, 12)].countP (fun p => decide (0 < p.1))) 1) :=
  ⟨by decide,
   (result_size_eq_min ops0 2 (by decide)).1 ℕ g0 [10, 11, 12],
   (result_size_eq_min ops0 2 (by decide)).2.1 ℕ g0 [(1, 10), (0, 11), (-1, 12)],
   (result_size_eq_min ops0 2 (by decide)).2.2 ℕ g0 [(1, 10), (0, 11), (3, 12)]⟩

/-- A list with one mid-position element replaced, re-headed by the value it
previously held there, is a permutation of the original list re-headed by the
new value. -/
theorem cons_set_perm {α : Type} : ∀ (xs : List α) (m : ℕ) (x b : α), xs[m]? = some b →
    List.Perm (b :: xs.set m x) (x :: xs)
  | [], _, _, _, h => by simp at h
  | c :: cs, 0, x, b, h => by
    simp at h
    subst h
    simpa using List.Perm.swap x c cs
  | c :: cs, m + 1, x, b, h => by
    simp at h
    have ih := cons_set_perm cs m x b h
    have s1 : List.Perm (b :: (c :: cs).set (m + 1) x) (c :: b :: cs.set m x) := by
      simpa using List.Perm.swap c b (cs.set m x)
    have s2 : List.Perm (c :: b :: cs.set m x) (c :: x :: cs) := List.Perm.cons c ih
    exact (s1.trans s2).trans (List.Perm.swap x c cs)

/-- Writing back the value a position already holds leaves a list unchanged. -/
theorem set_getD_self {α : Type} (l : List α) (i : ℕ) (d : α) (h : i < l.length) :
    l.set i (l.getD i d) = l := by
  apply List.ext_getElem?
  intro n
  by_cases hn : n = i
  · subst hn
    rw [List.getElem?_set_self (by simpa using h)]
    simp [List.getElem?_eq_getElem h]
  · rw [List.getElem?_set_ne (fun he => hn he.symm)]

/-- Exchanging two entries preserves the length. -/
theorem lswap_length {α : Type} (l : List α) (i j : ℕ) : (lswap l i j).length = l.length := by
  unfold lswap
  cases hi : l[i]? <;> cases hj : l[j]? <;> simp [hi, hj]

/-- Exchanging two entries permutes the list. -/
theorem lswap_perm {α : Type} : ∀ (l : List α) (i j : ℕ), List.Perm (lswap l i j) l
  | [], i, j => by simp [lswap]
  | x :: xs, 0, 0 => by simp [lswap]
  | x :: xs, 0, m + 1 => by
    unfold lswap
    cases hm : xs[m]? with
    | none => simp [hm]
    | some b =>
      simp only [List.getElem?_cons_zero, List.getElem?_cons_succ, hm,
        List.set_cons_zero, List.set_cons_succ]
      exact cons_set_perm xs m x b hm
  | x :: xs, n + 1, 0 => by
    unfold lswap
    cases hn : xs[n]? with
    | none => simp [hn]
    | some a =>
      simp only [List.getElem?_cons_zero, List.getElem?_cons_succ, hn,
        List.set_cons_zero, List.set_cons_succ]
      exact cons_set_perm xs n x a hn
  | x :: xs, n + 1, m + 1 => by
    have ih := lswap_perm xs n m
    unfold lswap
    cases hn : xs[n]? with
    | none => simp [hn]
    | some a =>
      cases hm : xs[m]? with
      | none => simp [hn, hm]
      | some b =>
        simp only [List.getElem?_cons_succ, hn, hm, List.set_cons_succ]
        refine List.Perm.cons x ?_
        unfold lswap at ih
        rw [hn, hm] at ih
        exact ih

/-- Value read back at the first swapped position. -/
theorem getD_lswap_fst {α : Type} (l : List α) (i j : ℕ) (d : α)
    (hi : i < l.length) (hj : j < l.length) : (lswap l i j).getD i d = l.getD j d := by
  unfold lswap
  rw [List.getElem?_eq_getElem hi, List.getElem?_eq_getElem hj]
  by_cases hij : i = j
  · subst hij
    simp [List.getElem?_set_self, hi]
  · rw [List.getD_eq_getElem?_getD, List.getElem?_set_ne (fun he => hij he.symm),
      List.getElem?_set_self (by simpa using hi)]
    simp [List.getElem?_eq_getElem hj]

/-- Value read back at the second swapped position. -/
theorem getD_lswap_snd {α : Type} (l : List α) (i j : ℕ) (d : α)
    (hi : i < l.length) (hj : j < l.length) : (lswap l i j).getD j d = l.getD i d := by
  unfold lswap
  rw [List.getElem?_eq_getElem hi, List.getElem?_eq_getElem hj]
  rw [List.getD_eq_getElem?_getD, List.getElem?_set_self (by simpa using hj)]
  simp [List.getElem?_eq_getElem hi]

/-- Values away from both swapped positions are untouched. -/
theorem getD_lswap_other {α : Type} (l : List α) (i j m : ℕ) (d : α)
    (hmi : m ≠ i) (hmj : m ≠ j) : (lswap l i j).getD m d = l.getD m d := by
  unfold lswap
  cases hi : l[i]? <;> cases hj : l[j]? <;>
    simp [hi, hj, List.getD_eq_getElem?_getD,
      List.getElem?_set_ne (fun he => hmj he.symm),
      List.getElem?_set_ne (fun he => hmi he.symm)]

/-- Key read back at the first swapped position. -/
theorem getP_lswap_fst (l : List HeapItem) (i j : ℕ)
    (hi : i < l.length) (hj : j < l.length) : getP (lswap l i j) i = getP l j := by
  unfold getP
  rw [getD_lswap_fst l i j default hi hj]

/-- Key read back at the second swapped position. -/
theorem getP_lswap_snd (l : List HeapItem) (i j : ℕ)
    (hi : i < l.length) (hj : j < l.length) : getP (lswap l i j) j = getP l i := by
  unfold getP
  rw [getD_lswap_snd l i j default hi hj]

/-- Keys away from both swapped positions are untouched. -/
theorem getP_lswap_other (l : List HeapItem) (i j m : ℕ)
    (hmi : m ≠ i) (hmj : m ≠ j) : getP (lswap l i j) m = getP l m := by
  unfold getP
  rw [getD_lswap_other l i j m default hmi hmj]

/-- Binary min-heap property on the first `n` entries: every non-root entry
below `n` has a key at least its parent's key. -/
def IsMinHeapN (l : List HeapItem) (n : ℕ) : Prop :=
  ∀ j, 0 < j → j < n → getP l (parentIdx j) ≤ getP l j

/-- Binary min-heap property on the whole used prefix. -/
def IsMinHeap (l : List HeapItem) : Prop :=
  IsMinHeapN l l.length

/-- The parent position is strictly closer to the root. -/
theorem parentIdx_lt {i : ℕ} (h : 0 < i) : parentIdx i < i := by
  unfold parentIdx
  omega

/-- Children of position `i` are exactly `2i+1` and `2i+2`. -/
theorem parentIdx_eq_iff {i j : ℕ} (h : 0 < j) :
    parentIdx j = i ↔ (j = 2 * i + 1 ∨ j = 2 * i + 2) := by
  unfold parentIdx
  omega

/-- In a min-heap the root key bounds every key. -/
theorem root_le_of_heapN {l : List HeapItem} {n : ℕ} (h : IsMinHeapN l n) :
    ∀ j, j < n → getP l 0 ≤ getP l j := by
  intro j
  induction j using Nat.strong_induction_on with
  | _ j ih =>
    intro hj
    rcases Nat.eq_zero_or_pos j with h0 | h0
    · subst h0; exact le_refl _
    · have hp := parentIdx_lt h0
      exact le_trans (ih (parentIdx j) hp (lt_trans hp hj)) (h j h0 hj)

/-- Heap property everywhere except on the edge into position `i`. -/
def HeapExceptAt (l : List HeapItem) (i : ℕ) : Prop :=
  ∀ j, 0 < j → j < l.length → j ≠ i → getP l (parentIdx j) ≤ getP l j

/-- Across the hole at `i`, the grandparent already bounds the children of
`i`; this is the second half of the sift-up loop invariant. -/
def GrandOk (l : List HeapItem) (i : ℕ) : Prop :=
  0 < i → ∀ j, j < l.length → parentIdx j = i → getP l (parentIdx i) ≤ getP l j

/-- The sift-up loop restores the full heap property from its loop invariant,
given enough fuel. -/
theorem siftUpF_heap : ∀ (fuel : ℕ) (l : List HeapItem) (i : ℕ), i ≤ fuel → i < l.length →
    HeapExceptAt l i → GrandOk l i → IsMinHeap (siftUpF fuel l i) := by
  intro fuel
  induction fuel with
  | zero =>
    intro l i hif hil hE hG
    have h0 : i = 0 := Nat.le_zero.mp hif
    subst h0
    intro j hj0 hjl
    exact hE j hj0 hjl (Nat.pos_iff_ne_zero.mp hj0)
  | succ fuel ih =>
    intro l i hif hil hE hG
    show IsMinHeap (siftUpF (fuel + 1) l i)
    rw [siftUpF]
    by_cases h0 : i = 0
    · rw [if_pos h0]
      subst h0
      intro j hj0 hjl
      exact hE j hj0 hjl (Nat.pos_iff_ne_zero.mp hj0)
    · rw [if_neg h0]
      have hi0 : 0 < i := Nat.pos_of_ne_zero h0
      have hpi : parentIdx i < i := parentIdx_lt hi0
      by_cases hswap : getP l i < getP l (parentIdx i)
      · rw [if_pos hswap]
        set p := parentIdx i with hp
        have hpl : p < l.length := lt_trans hpi hil
        have hlen : (lswap l p i).length = l.length := lswap_length l p i
        have hvp : getP (lswap l p i) p = getP l i := getP_lswap_fst l p i hpl hil
        have hvi : getP (lswap l p i) i = getP l p := getP_lswap_snd l p i hpl hil
        have hvo : ∀ m, m ≠ p → m ≠ i → getP (lswap l p i) m = getP l m := by
          intro m hmp hmi
          exact getP_lswap_other l p i m hmp hmi
        apply ih (lswap l p i) p (by omega) (by omega)
        · -- heap except at the new hole p
          intro j hj0 hjl hjp
          rw [hlen] at hjl
          by_cases hji : j = i
          · subst hji
            have hpj : parentIdx j = p := hp.symm
            rw [hpj, hvp, hvi]
            exact le_of_lt hswap
          · have hjne : getP (lswap l p i) j = getP l j := hvo j hjp hji
            by_cases hpar : parentIdx j = i
            · have hpar2 : getP (lswap l p i) (parentIdx j) = getP l p := by
                rw [hpar, hvi]
              rw [hpar2, hjne]
              exact hG hi0 j hjl hpar
            · by_cases hparp : parentIdx j = p
              · have hpar2 : getP (lswap l p i) (parentIdx j) = getP l i := by
                  rw [hparp, hvp]
                rw [hpar2, hjne]
                exact le_trans (le_of_lt hswap) (by rw [← hparp]; exact hE j hj0 hjl hji)
              · rw [hvo (parentIdx j) hparp hpar, hjne]
                exact hE j hj0 hjl hji
        · -- grandparent bound across the new hole p
          intro hp0 j hjl hpj
          rw [hlen] at hjl
          have hppp : parentIdx p < p := parentIdx_lt hp0
          have hgp : getP (lswap l p i) (parentIdx p) = getP l (parentIdx p) :=
            hvo (parentIdx p) (by omega) (by omega)
          have hpp : getP l (parentIdx p) ≤ getP l p :=
            hE p hp0 hpl (by omega)
          by_cases hji : j = i
          · subst hji
            rw [hgp, hvi]
            exact hpp
          · have hjp : j ≠ p := by
              intro hjpe
              rw [hjpe] at hpj
              omega
            rw [hgp, hvo j hjp hji]
            have hj0 : 0 < j := by
              rcases Nat.eq_zero_or_pos j with hz | hz
              · exfalso
                subst hz
                unfold parentIdx at hpj
                omega
              · exact hz
            have hEj := hE j hj0 hjl hji
            rw [hpj] at hEj
            exact le_trans hpp hEj
      · rw [if_neg hswap]
        intro j hj0 hjl
        by_cases hji : j = i
        · subst hji
          exact not_lt.mp hswap
        · exact hE j hj0 hjl hji

/-- The sift-up loop permutes the heap entries. -/
theorem siftUpF_perm : ∀ (fuel : ℕ) (l : List HeapItem) (i : ℕ),
    List.Perm (siftUpF fuel l i) l := by
  intro fuel
  induction fuel with
  | zero => intro l i; exact List.Perm.refl l
  | succ fuel ih =>
    intro l i
    rw [siftUpF]
    by_cases h0 : i = 0
    · rw [if_pos h0]
    · rw [if_neg h0]
      by_cases hswap : getP l i < getP l (parentIdx i)
      · rw [if_pos hswap]
        exact (ih _ _).trans (lswap_perm l (parentIdx i) i)
      · rw [if_neg hswap]

/-- Heap property on the first `n` entries except on the edges out of
position `i` to its children. -/
def HeapExceptChildren (l : List HeapItem) (i n : ℕ) : Prop :=
  ∀ j, 0 < j → j < n → parentIdx j ≠ i → getP l (parentIdx j) ≤ getP l j

/-- Across the hole at `i`, the parent of `i` already bounds the children of
`i`; this is the second half of the sift-down loop invariant. -/
def ParentOk (l : List HeapItem) (i n : ℕ) : Prop :=
  0 < i → ∀ j, j < n → parentIdx j = i → getP l (parentIdx i) ≤ getP l j

/-- The sift-down loop restores the heap property on the first `n` entries
from its loop invariant, given enough fuel. -/
theorem siftDownF_heapN : ∀ (fuel : ℕ) (l : List HeapItem) (i n : ℕ), n ≤ l.length →
    n - i ≤ fuel → HeapExceptChildren l i n → ParentOk l i n →
    IsMinHeapN (siftDownF fuel l i n) n := by
  intro fuel
  induction fuel with
  | zero =>
    intro l i n hnl hfuel hE hP
    intro j hj0 hjn
    refine hE j hj0 hjn ?_
    have := parentIdx_lt hj0
    omega
  | succ fuel ih =>
    intro l i n hnl hfuel hE hP
    show IsMinHeapN (siftDownF (fuel + 1) l i n) n
    simp only [siftDownF]
    by_cases hc1 : 2 * i + 1 ≥ n
    · rw [if_pos hc1]
      intro j hj0 hjn
      refine hE j hj0 hjn ?_
      intro hpj
      rw [parentIdx_eq_iff hj0] at hpj
      omega
    · rw [if_neg hc1]
      generalize hcdef : (if 2 * i + 2 < n ∧ getP l (2 * i + 2) < getP l (2 * i + 1)
        then 2 * i + 2 else 2 * i + 1) = c
      have hcrange : c = 2 * i + 1 ∨ c = 2 * i + 2 := by
        rw [← hcdef]; split
        · right; rfl
        · left; rfl
      have hcn : c < n := by
        rw [← hcdef]; split
        · rename_i h; exact h.1
        · omega
      have hci : parentIdx c = i := by
        rw [parentIdx_eq_iff (by omega)]
        exact hcrange
      have hic : i < c := by omega
      have hchoice : ∀ j, 0 < j → j < n → parentIdx j = i → getP l c ≤ getP l j := by
        intro j hj0 hjn hpj
        rw [parentIdx_eq_iff hj0] at hpj
        by_cases hcc : 2 * i + 2 < n ∧ getP l (2 * i + 2) < getP l (2 * i + 1)
        · have hcv : c = 2 * i + 2 := by rw [← hcdef, if_pos hcc]
          rcases hpj with hj | hj
          · subst hj
            rw [hcv]
            exact le_of_lt hcc.2
          · subst hj
            rw [hcv]
        · have hcv : c = 2 * i + 1 := by rw [← hcdef, if_neg hcc]
          rcases hpj with hj | hj
          · subst hj
            rw [hcv]
          · subst hj
            rw [hcv]
            exact not_lt.mp (not_and.mp hcc hjn)
      by_cases hswap : getP l c < getP l i
      · rw [if_pos hswap]
        have hil : i < l.length := by omega
        have hcl : c < l.length := by omega
        have hvi : getP (lswap l i c) i = getP l c := getP_lswap_fst l i c hil hcl
        have hvc : getP (lswap l i c) c = getP l i := getP_lswap_snd l i c hil hcl
        have hvo : ∀ m, m ≠ i → m ≠ c → getP (lswap l i c) m = getP l m := by
          intro m hmi hmc
          exact getP_lswap_other l i c m hmi hmc
        apply ih (lswap l i c) c n
        · rw [lswap_length]; exact hnl
        · omega
        · intro j hj0 hjn hjpc
          by_cases hjc : j = c
          · subst hjc
            rw [hci, hvi, hvc]
            exact le_of_lt hswap
          · by_cases hji : j = i
            · subst hji
              have hpj : parentIdx j < j := parentIdx_lt hj0
              rw [hvo (parentIdx j) (by omega) (by omega), hvi]
              exact hP hj0 c hcn hci
            · rw [hvo j hji hjc]
              by_cases hpar : parentIdx j = i
              · rw [hpar, hvi]
                exact hchoice j hj0 hjn hpar
              · rw [hvo (parentIdx j) hpar hjpc]
                exact hE j hj0 hjn hpar
        · intro hc0 j hjn hpjc
          have hj0 : 0 < j := by
            rcases Nat.eq_zero_or_pos j with hz | hz
            · exfalso
              subst hz
              unfold parentIdx at hpjc
              omega
            · exact hz
          have hj2c : j = 2 * c + 1 ∨ j = 2 * c + 2 := (parentIdx_eq_iff hj0).mp hpjc
          have hji : j ≠ i := by omega
          have hjc : j ≠ c := by omega
          rw [hci, hvi, hvo j hji hjc]
          have hEj := hE j hj0 hjn (by omega)
          rw [hpjc] at hEj
          exact hEj
      · rw [if_neg hswap]
        intro j hj0 hjn
        by_cases hpar : parentIdx j = i
        · rw [hpar]
          exact le_trans (not_lt.mp hswap) (hchoice j hj0 hjn hpar)
        · exact hE j hj0 hjn hpar

/-- The sift-down loop permutes the heap entries. -/
theorem siftDownF_perm : ∀ (fuel : ℕ) (l : List HeapItem) (i n : ℕ),
    List.Perm (siftDownF fuel l i n) l := by
  intro fuel
  induction fuel with
  | zero => intro l i n; exact List.Perm.refl l
  | succ fuel ih =>
    intro l i n
    simp only [siftDownF]
    by_cases hc1 : 2 * i + 1 ≥ n
    · rw [if_pos hc1]
    · rw [if_neg hc1]
      set c := if 2 * i + 2 < n ∧ getP l (2 * i + 2) < getP l (2 * i + 1)
        then 2 * i + 2 else 2 * i + 1
      by_cases hswap : getP l c < getP l i
      · rw [if_pos hswap]
        exact (ih _ _ _).trans (lswap_perm l i c)
      · rw [if_neg hswap]

/-- Keys within the original prefix are unaffected by appending entries. -/
theorem getP_append_lt (h : List HeapItem) (l2 : List HeapItem) (m : ℕ)
    (hm : m < h.length) : getP (h ++ l2) m = getP h m := by
  unfold getP
  rw [List.getD_eq_getElem?_getD, List.getD_eq_getElem?_getD,
    List.getElem?_append_left hm]

/-- Keys away from an overwritten position are unaffected. -/
theorem getP_set_ne (l : List HeapItem) (m j : ℕ) (item : HeapItem)
    (hmj : m ≠ j) : getP (l.set m item) j = getP l j := by
  unfold getP
  rw [List.getD_eq_getElem?_getD, List.getD_eq_getElem?_getD,
    List.getElem?_set_ne hmj]

/-- `std::push_heap` permutes the entries it is given. -/
theorem pushHeap_perm (l : List HeapItem) : List.Perm (pushHeap l) l :=
  siftUpF_perm (l.length - 1) l (l.length - 1)

/-- Pushing a new entry onto a min-heap yields a min-heap. -/
theorem pushHeap_append_heap (h : List HeapItem) (item : HeapItem)
    (hh : IsMinHeap h) : IsMinHeap (pushHeap (h ++ [item])) := by
  unfold pushHeap siftUp
  have hlen : (h ++ [item]).length = h.length + 1 := by simp
  rw [hlen]
  simp only [Nat.add_sub_cancel]
  apply siftUpF_heap h.length (h ++ [item]) h.length (le_refl _) (by omega)
  · intro j hj0 hjl hji
    rw [hlen] at hjl
    have hjh : j < h.length := by omega
    have hpj : parentIdx j < j := parentIdx_lt hj0
    rw [getP_append_lt h [item] j hjh, getP_append_lt h [item] (parentIdx j) (by omega)]
    exact hh j hj0 hjh
  · intro h0 j hjl hpj
    exfalso
    rcases Nat.eq_zero_or_pos j with hz | hz
    · subst hz
      unfold parentIdx at hpj
      omega
    · rw [parentIdx_eq_iff hz] at hpj
      rw [hlen] at hjl
      omega

/-- `std::pop_heap` permutes the entries it is given. -/
theorem popHeapK_perm (l : List HeapItem) (k : ℕ) : List.Perm (popHeapK l k) l :=
  (siftDownF_perm (k - 1) (lswap l 0 (k - 1)) 0 (k - 1)).trans (lswap_perm l 0 (k - 1))

/-- The number of heap entries is unchanged by `std::pop_heap`. -/
theorem popHeapK_length (l : List HeapItem) (k : ℕ) :
    (popHeapK l k).length = l.length :=
  (popHeapK_perm l k).length_eq

/-- After popping the root of a full min-heap, the first `k - 1` entries form
a min-heap again. -/
theorem popHeapK_heapN (l : List HeapItem) (k : ℕ) (hk : 0 < k)
    (hlen : l.length = k) (hh : IsMinHeap l) : IsMinHeapN (popHeapK l k) (k - 1) := by
  unfold popHeapK siftDown
  apply siftDownF_heapN (k - 1) (lswap l 0 (k - 1)) 0 (k - 1)
  · rw [lswap_length]
    omega
  · omega
  · intro j hj0 hjn hpj
    have hj1 : j < k - 1 := hjn
    have hpj1 : parentIdx j < j := parentIdx_lt hj0
    rw [getP_lswap_other l 0 (k - 1) j (by omega) (by omega),
      getP_lswap_other l 0 (k - 1) (parentIdx j) hpj (by omega)]
    exact hh j hj0 (by omega)
  · intro h00
    exact absurd h00 (lt_irrefl 0)

/-- Overwriting the entry at position `k - 1` of a `k`-entry list whose first
`k - 1` entries form a min-heap, then pushing, restores the full min-heap
property: this is the eviction step of `insertSortedRemoveFirst`. -/
theorem set_last_pushHeap_heap (l : List HeapItem) (k : ℕ) (hk : 0 < k)
    (hlen : l.length = k) (hh : IsMinHeapN l (k - 1)) (item : HeapItem) :
    IsMinHeap (pushHeap (l.set (k - 1) item)) := by
  unfold pushHeap siftUp
  have hlen2 : (l.set (k - 1) item).length = k := by simp [hlen]
  rw [hlen2]
  apply siftUpF_heap (k - 1) (l.set (k - 1) item) (k - 1) (le_refl _) (by omega)
  · intro j hj0 hjl hji
    rw [hlen2] at hjl
    have hjh : j < k - 1 := by omega
    have hpj : parentIdx j < j := parentIdx_lt hj0
    rw [getP_set_ne l (k - 1) j item (by omega), getP_set_ne l (k - 1) (parentIdx j) item (by omega)]
    exact hh j hj0 hjh
  · intro h0 j hjl hpj
    exfalso
    rcases Nat.eq_zero_or_pos j with hz | hz
    · subst hz
      unfold parentIdx at hpj
      omega
    · rw [parentIdx_eq_iff hz] at hpj
      rw [hlen2] at hjl
      omega

/-- Sampling-state invariant of the weighted samplers: the used heap prefix
has exactly `filled` entries, `filled` never exceeds the capacity, the heap is
a min-heap on keys, and the heap entries' slot indexes are a permutation of
`0..filled-1`. -/
def WInv (k : ℕ) (s : WState T) : Prop :=
  s.heap.length = s.elements.length ∧ s.elements.length ≤ k ∧ IsMinHeap s.heap ∧
    List.Perm (s.heap.map HeapItem.index) (List.range s.elements.length)

/-- Slot index stored at a position, read through the mapped index list. -/
theorem index_getD_map (l : List HeapItem) (i : ℕ) (hi : i < l.length) :
    (l.map HeapItem.index).getD i 0 = (l.getD i default).index := by
  rw [List.getD_eq_getElem?_getD, List.getD_eq_getElem?_getD, List.getElem?_map,
    List.getElem?_eq_getElem hi]
  rfl

/-- `insertSorted` preserves the weighted-sampler invariant while the
reservoir is below capacity. -/
theorem insertSorted_WInv (k : ℕ) (s : WState T) (r : ℚ) (x : T) (h : WInv k s)
    (hlt : s.elements.length < k) : WInv k (insertSorted s r x) := by
  obtain ⟨h1, h2, h3, h4⟩ := h
  have hperm := pushHeap_perm (s.heap ++ [⟨r, s.elements.length⟩])
  refine ⟨?_, ?_, ?_, ?_⟩
  · simp only [insertSorted]
    rw [hperm.length_eq]
    simp [h1]
  · simp only [insertSorted]
    simp
    omega
  · exact pushHeap_append_heap _ _ h3
  · simp only [insertSorted]
    refine (hperm.map HeapItem.index).trans ?_
    rw [List.map_append]
    simp only [List.map_cons, List.map_nil, List.length_append, List.length_cons,
      List.length_nil]
    rw [List.range_succ]
    exact h4.append_right [s.elements.length]

/-- `insertSortedRemoveFirst` preserves the weighted-sampler invariant on a
full reservoir. -/
theorem insertSortedRemoveFirst_WInv (k : ℕ) (s : WState T) (r : ℚ) (x : T)
    (h : WInv k s) (hfull : s.elements.length = k) (hk : 0 < k) :
    WInv k (insertSortedRemoveFirst k s r x) := by
  obtain ⟨h1, h2, h3, h4⟩ := h
  have hhlen : s.heap.length = k := by omega
  have hpoplen : (popHeapK s.heap k).length = k := by
    rw [popHeapK_length]
    exact hhlen
  have hpopheap := popHeapK_heapN s.heap k hk hhlen h3
  have hsetlen : ((popHeapK s.heap k).set (k - 1)
      ⟨r, ((popHeapK s.heap k).getD (k - 1) default).index⟩).length = k := by
    simp [hpoplen]
  have hpushperm := pushHeap_perm ((popHeapK s.heap k).set (k - 1)
    ⟨r, ((popHeapK s.heap k).getD (k - 1) default).index⟩)
  refine ⟨?_, ?_, ?_, ?_⟩
  · simp only [insertSortedRemoveFirst]
    rw [hpushperm.length_eq, hsetlen]
    simp [hfull]
  · simp only [insertSortedRemoveFirst]
    simp
    omega
  · exact set_last_pushHeap_heap (popHeapK s.heap k) k hk hpoplen hpopheap _
  · simp only [insertSortedRemoveFirst]
    refine (hpushperm.map HeapItem.index).trans ?_
    rw [List.map_set]
    have hset : ((popHeapK s.heap k).map HeapItem.index).set (k - 1)
        ((popHeapK s.heap k).getD (k - 1) default).index =
        (popHeapK s.heap k).map HeapItem.index := by
      rw [← index_getD_map (popHeapK s.heap k) (k - 1) (by omega)]
      exact set_getD_self _ _ _ (by simp [hpoplen]; omega)
    rw [hset]
    refine ((popHeapK_perm s.heap k).map HeapItem.index).trans ?_
    simp only [List.length_set]
    exact h4

/-- Heap and reservoir produced by the filling branch of the weighted
`emplace`. -/
theorem emplaceW_fill_proj (ops : RealOps) (k : ℕ) (s : WState T) (w : ℚ) (x : T)
    (hw : 0 < w) (h1 : s.elements.length < k) :
    (emplaceW ops k s w x).heap =
      pushHeap (s.heap ++ [⟨ops.pow s.rng.nextReal.1 (1 / w), s.elements.length⟩]) ∧
    (emplaceW ops k s w x).elements = s.elements ++ [x] := by
  constructor <;> by_cases h2 : s.elements.length + 1 = k <;>
    simp [emplaceW, insertSorted, hw, h1, h2]

/-- Heap and reservoir produced by the eviction branch of the weighted
`emplace`. -/
theorem emplaceW_replace_proj (ops : RealOps) (k : ℕ) (s : WState T) (w : ℚ) (x : T)
    (hw : 0 < w) (h1 : ¬ s.elements.length < k) (h2 : s.weightJumpOver - w ≤ 0) :
    (emplaceW ops k s w x).heap =
      pushHeap ((popHeapK s.heap k).set (k - 1)
        ⟨ops.pow (s.rng.nextRealIn ops (ops.pow (getP s.heap 0) w)).1 (1 / w),
          ((popHeapK s.heap k).getD (k - 1) default).index⟩) ∧
    (emplaceW ops k s w x).elements =
      s.elements.set ((popHeapK s.heap k).getD (k - 1) default).index x := by
  constructor <;> simp [emplaceW, insertSortedRemoveFirst, hw, h1, h2]

/-- The declining branch of the weighted `emplace` only decreases the
budget. -/
theorem emplaceW_skip_proj (ops : RealOps) (k : ℕ) (s : WState T) (w : ℚ) (x : T)
    (hw : 0 < w) (h1 : ¬ s.elements.length < k) (h2 : ¬ s.weightJumpOver - w ≤ 0) :
    emplaceW ops k s w x = { s with weightJumpOver := s.weightJumpOver - w } := by
  simp [emplaceW, hw, h1, h2]

/-- The weighted `emplace` preserves the sampler invariant. -/
theorem WInv_emplaceW (ops : RealOps) (k : ℕ) (s : WState T) (w : ℚ) (x : T)
    (h : WInv k s) : WInv k (emplaceW ops k s w x) := by
  by_cases hw : 0 < w
  · by_cases h1 : s.elements.length < k
    · obtain ⟨hh, he⟩ := emplaceW_fill_proj ops k s w x hw h1
      have hi := insertSorted_WInv k s (ops.pow s.rng.nextReal.1 (1 / w)) x h h1
      obtain ⟨i1, i2, i3, i4⟩ := hi
      simp only [insertSorted] at i1 i2 i3 i4
      exact ⟨by rw [hh, he]; exact i1, by rw [he]; exact i2, by rw [hh]; exact i3,
        by rw [hh, he]; exact i4⟩
    · by_cases h2 : s.weightJumpOver - w ≤ 0
      · obtain ⟨hh, he⟩ := emplaceW_replace_proj ops k s w x hw h1 h2
        rcases Nat.eq_zero_or_pos k with hk | hk
        · subst hk
          have hel : s.elements = [] := List.length_eq_zero.mp (by
            have h21 := h.2.1
            omega)
          have hhp : s.heap = [] := List.length_eq_zero.mp (by
            have h11 := h.1
            have h21 := h.2.1
            omega)
          rw [hhp] at hh
          rw [hel] at he
          refine ⟨?_, ?_, ?_, ?_⟩
          · rw [hh, he]
            simp [popHeapK, siftDown, siftDownF, lswap, pushHeap, siftUp, siftUpF]
          · rw [he]
            simp
          · rw [hh]
            intro j hj0 hjl
            simp [popHeapK, siftDown, siftDownF, lswap, pushHeap, siftUp, siftUpF] at hjl
          · rw [hh, he]
            exact List.Perm.nil
        · have hfull : s.elements.length = k := by
            have := h.2.1
            omega
          have hi := insertSortedRemoveFirst_WInv k s
            (ops.pow (s.rng.nextRealIn ops (ops.pow (getP s.heap 0) w)).1 (1 / w)) x h hfull hk
          obtain ⟨i1, i2, i3, i4⟩ := hi
          simp only [insertSortedRemoveFirst] at i1 i2 i3 i4
          exact ⟨by rw [hh, he]; exact i1, by rw [he]; exact i2, by rw [hh]; exact i3,
            by rw [hh, he]; exact i4⟩
      · rw [emplaceW_skip_proj ops k s w x hw h1 h2]
        exact h
  · have he : emplaceW ops k s w x = s := by unfold emplaceW; rw [if_neg hw]
    rw [he]
    exact h

/-- States reachable by the public mutating operations of a weighted sampler
from a freshly constructed one: sampling (with any weight), skipping, and
resetting (`consumeResult` and `consumeResultTo` leave the `reset` state). -/
inductive ReachableW (ops : RealOps) (k : ℕ) : WState T → Prop where
  | init (g : Rng) : ReachableW ops k (initW g)
  | sample (s : WState T) (w : ℚ) (x : T) : ReachableW ops k s →
      ReachableW ops k (emplaceW ops k s w x)
  | skip (s : WState T) (w : ℚ) : ReachableW ops k s →
      ReachableW ops k (skipNextW s w)
  | reset (s : WState T) : ReachableW ops k s → ReachableW ops k (resetW s)

/-- Every reachable weighted-sampler state satisfies the invariant. -/
theorem reachable_WInv (ops : RealOps) (k : ℕ) (s : WState T)
    (h : ReachableW ops k s) : WInv k s := by
  induction h with
  | init g =>
    refine ⟨rfl, Nat.zero_le k, ?_, by simp [initW]⟩
    intro j hj0 hjl
    exact absurd hjl (by simp [initW])
  | sample s w x hs ih => exact WInv_emplaceW ops k s w x ih
  | skip s w hs ih => exact ih
  | reset s hs ih =>
    refine ⟨rfl, Nat.zero_le k, ?_, by simp [resetW]⟩
    intro j hj0 hjl
    exact absurd hjl (by simp [resetW])

/-- C4: after any sequence of operations on a weighted sampler, the used heap
prefix has exactly `filled` entries with `filled ≤ k`, the heap root key is at
most every other heap key, and the slot indexes stored in the heap entries are
a permutation of `0..filled-1`. -/
theorem weighted_heap_invariant (ops : RealOps) (k : ℕ) (T : Type) (s : WState T)
    (h : ReachableW ops k s) :
    s.heap.length = s.elements.length ∧ s.elements.length ≤ k ∧
    (∀ j, j < s.heap.length → getP s.heap 0 ≤ getP s.heap j) ∧
    List.Perm (s.heap.map HeapItem.index) (List.range s.elements.length) := by
  obtain ⟨h1, h2, h3, h4⟩ := reachable_WInv ops k s h
  exact ⟨h1, h2, fun j hj => root_le_of_heapN h3 j hj, h4⟩

/-- Witness for C4: the invariant evaluated on the sampler state reached by
offering one element of weight `1` to a fresh capacity-2 sampler. -/
theorem weighted_heap_invariant_witness :
    (emplaceW ops0 2 (initW g0) 1 (10 : ℕ)).heap.length =
      (emplaceW ops0 2 (initW g0) 1 (10 : ℕ)).elements.length ∧
    (emplaceW ops0 2 (initW g0) 1 (10 : ℕ)).elements.length ≤ 2 ∧
    (∀ j, j < (emplaceW ops0 2 (initW g0) 1 (10 : ℕ)).heap.length →
      getP (emplaceW ops0 2 (initW g0) 1 (10 : ℕ)).heap 0 ≤
        getP (emplaceW ops0 2 (initW g0) 1 (10 : ℕ)).heap j) ∧
    List.Perm ((emplaceW ops0 2 (initW g0) 1 (10 : ℕ)).heap.map HeapItem.index)
      (List.range (emplaceW ops0 2 (initW g0) 1 (10 : ℕ)).elements.length) :=
  weighted_heap_invariant ops0 2 ℕ _ (ReachableW.sample _ 1 10 (ReachableW.init g0))

/-- Counterexample for C3: a reachable state of a capacity-2 weighted sampler
holding two elements whose heap root key is strictly smaller than the other
heap key — the root holds the smallest key, not the largest. -/
theorem weighted_root_not_largest :
    ReachableW ops0 2 (emplaceW ops0 2 (emplaceW ops0 2 (initW g0) 1 (10 : ℕ)) 1 20) ∧
    (emplaceW ops0 2 (emplaceW ops0 2 (initW g0) 1 (10 : ℕ)) 1 20).heap.length = 2 ∧
    getP (emplaceW ops0 2 (emplaceW ops0 2 (initW g0) 1 (10 : ℕ)) 1 20).heap 0 <
      getP (emplaceW ops0 2 (emplaceW ops0 2 (initW g0) 1 (10 : ℕ)) 1 20).heap 1 := by
  have e1 : emplaceW ops0 2 (initW g0) 1 (10 : ℕ) =
      ⟨0, ⟨[4/5, 1/3, 1/4, 1/5, 1/6], [3, 7, 9]⟩, [⟨1/2 * (1 / 1), 0⟩], [10]⟩ := by
    norm_num [emplaceW, insertSorted, initW, g0, ops0, Rng.nextReal, pushHeap,
      siftUp, siftUpF]
  have e2 : emplaceW ops0 2 (⟨0, ⟨[4/5, 1/3, 1/4, 1/5, 1/6], [3, 7, 9]⟩,
        [⟨1/2 * (1 / 1), 0⟩], [10]⟩ : WState ℕ) 1 20 =
      ⟨(1/3) / (1/2 * (1/1)), ⟨[1/4, 1/5, 1/6], [3, 7, 9]⟩,
        [⟨1/2 * (1/1), 0⟩, ⟨4/5 * (1/1), 1⟩], [10, 20]⟩ := by
    norm_num [emplaceW, insertSorted, Rng.nextReal, pushHeap, siftUp, siftUpF,
      getP, parentIdx, lswap, ops0]
  refine ⟨ReachableW.sample _ 1 20 (ReachableW.sample _ 1 10 (ReachableW.init g0)), ?_, ?_⟩
  · rw [e1, e2]
    rfl
  · rw [e1, e2]
    norm_num [getP]

/-- C3 (amended): the priority structure of the weighted samplers is a
min-heap by key: at every reachable state with a non-empty reservoir the heap
root holds the smallest key of all heap entries — the weakest incumbent, the
one `insertSortedRemoveFirst` evicts.  The comparator
`a.priority > b.priority` handed to `std::push_heap` / `std::pop_heap` makes
the root minimal, not maximal. -/
theorem weighted_heap_root_smallest (ops : RealOps) (k : ℕ) (T : Type) (s : WState T)
    (h : ReachableW ops k s) (_hne : s.elements.length ≠ 0) :
    ∀ j, j < s.heap.length → getP s.heap 0 ≤ getP s.heap j := by
  obtain ⟨_, _, h3, _⟩ := reachable_WInv ops k s h
  exact fun j hj => root_le_of_heapN h3 j hj

/-- Witness for C3: the amended root-minimality evaluated on the state
reached by one weight-1 sample into a fresh capacity-2 sampler. -/
theorem weighted_heap_root_smallest_witness :
    (emplaceW ops0 2 (initW g0) 1 (10 : ℕ)).elements.length ≠ 0 ∧
    (∀ j, j < (emplaceW ops0 2 (initW g0) 1 (10 : ℕ)).heap.length →
      getP (emplaceW ops0 2 (initW g0) 1 (10 : ℕ)).heap 0 ≤
        getP (emplaceW ops0 2 (initW g0) 1 (10 : ℕ)).heap j) := by
  have hne : (emplaceW ops0 2 (initW g0) 1 (10 : ℕ)).elements.length ≠ 0 := by
    have hL := length_emplaceW ops0 2 (initW g0) 1 (10 : ℕ)
    rw [if_pos ⟨by norm_num, by simp [initW]⟩] at hL
    omega
  exact ⟨hne, weighted_heap_root_smallest ops0 2 ℕ _
    (ReachableW.sample _ 1 10 (ReachableW.init g0)) hne⟩

/-- One step of the program that simply samples every stream element. -/
def step1W (ops : RealOps) (k : ℕ) (s : WState T) (p : ℚ × T) : WState T :=
  emplaceW ops k s p.1 p.2

/-- One step of the peek-protocol program: sample when
`willNextBeConsidered(w)` holds, otherwise `skipNext(w)`. -/
def step2W (ops : RealOps) (k : ℕ) (s : WState T) (p : ℚ × T) : WState T :=
  if willNextW s p.1 then emplaceW ops k s p.1 p.2 else skipNextW s p.1

/-- On a weighted sampler whose budget is zero while the reservoir is still
filling, `emplace` keeps that property: the budget only becomes non-zero at
the transition to a full reservoir, and the reservoir never shrinks. -/
theorem fillZero_emplaceW (ops : RealOps) (k : ℕ) (s : WState T) (w : ℚ) (x : T)
    (hinv : s.elements.length < k → s.weightJumpOver = 0) :
    (emplaceW ops k s w x).elements.length < k → (emplaceW ops k s w x).weightJumpOver = 0 := by
  intro hlt
  by_cases hw : 0 < w
  · by_cases h1 : s.elements.length < k
    · by_cases h2 : s.elements.length + 1 = k
      · exfalso
        have hL := length_emplaceW ops k s w x
        rw [if_pos ⟨hw, h1⟩] at hL
        omega
      · have hb : (emplaceW ops k s w x).weightJumpOver = s.weightJumpOver := by
          simp [emplaceW, insertSorted, hw, h1, h2]
        rw [hb]
        exact hinv h1
    · exfalso
      have hL := length_emplaceW ops k s w x
      rw [if_neg (by tauto)] at hL
      omega
  · have he : emplaceW ops k s w x = s := by unfold emplaceW; rw [if_neg hw]
    rw [he] at hlt ⊢
    exact hinv hlt

/-- On a stream element of non-negative weight, the peek-protocol step agrees
with the plain sampling step, provided the budget is zero whenever the
reservoir is still filling. -/
theorem peek_step_eq (ops : RealOps) (k : ℕ) (s : WState T) (p : ℚ × T)
    (hw : 0 ≤ p.1) (hinv : s.elements.length < k → s.weightJumpOver = 0) :
    step2W ops k s p = step1W ops k s p := by
  unfold step2W step1W
  by_cases hc : willNextW s p.1
  · rw [if_pos hc]
  · rw [if_neg hc]
    have hclt : 0 < s.weightJumpOver - p.1 := by
      unfold willNextW at hc
      exact lt_of_not_le hc
    by_cases h1 : s.elements.length < k
    · exfalso
      rw [hinv h1] at hclt
      linarith
    · by_cases hw0 : 0 < p.1
      · unfold emplaceW
        rw [if_pos hw0, if_neg h1, if_neg (not_le.mpr hclt)]
        rfl
      · have hz : p.1 = 0 := le_antisymm (not_lt.mp hw0) hw
        have he : emplaceW ops k s p.1 p.2 = s := by unfold emplaceW; rw [if_neg hw0]
        rw [he]
        cases s with
        | mk a b c d => simp [skipNextW, hz]

/-- Folding the two programs over a non-negatively weighted stream from a
state satisfying the filling-budget invariant gives equal states. -/
theorem foldl_peek_eq (ops : RealOps) (k : ℕ) :
    ∀ (stream : List (ℚ × T)) (s : WState T), (∀ p ∈ stream, 0 ≤ p.1) →
      (s.elements.length < k → s.weightJumpOver = 0) →
      stream.foldl (step2W ops k) s = stream.foldl (step1W ops k) s := by
  intro stream
  induction stream with
  | nil => intro s _ _; rfl
  | cons p rest ih =>
    intro s hw hinv
    simp only [List.foldl_cons]
    rw [peek_step_eq ops k s p (hw p (List.mem_cons_self p rest)) hinv]
    exact ih (step1W ops k s p) (fun q hq => hw q (List.mem_cons_of_mem p hq))
      (fillZero_emplaceW ops k s p.1 p.2 hinv)

/-- Counterexample for C5: on the stream consisting of one element of weight
`-1`, plain sampling ignores the element while the peek protocol (whose
predicate is false) calls `skipNext`, which adds `1` to the weight budget, so
the two programs end in different states. -/
theorem peek_roundtrip_cex :
    [((-1 : ℚ), (0 : ℕ))].foldl (step2W ops0 1) (initW g0) ≠
      [((-1 : ℚ), (0 : ℕ))].foldl (step1W ops0 1) (initW g0) := by
  have e2 : [((-1 : ℚ), (0 : ℕ))].foldl (step2W ops0 1) (initW g0) =
      (⟨1, g0, [], []⟩ : WState ℕ) := by
    norm_num [step2W, willNextW, skipNextW, initW, List.foldl]
  have e1 : [((-1 : ℚ), (0 : ℕ))].foldl (step1W ops0 1) (initW g0) = initW g0 := by
    norm_num [step1W, emplaceW, initW, List.foldl]
  rw [e1, e2]
  intro h
  have hb := congrArg WState.weightJumpOver h
  norm_num [initW] at hb

/-- C5 (amended): for every stream of pairs whose weights are all
non-negative and every initial generator state, the plain sampling program
and the peek-protocol program end in identical internal sampler state
(reservoir, heap, weight budget and generator) and produce the same result.
Negative weights break the equivalence, because `sample` ignores them while
`skip_next` still subtracts them from the budget. -/
theorem peek_roundtrip (ops : RealOps) (k : ℕ) (T : Type) (stream : List (ℚ × T))
    (g : Rng) (hw : ∀ p ∈ stream, 0 ≤ p.1) :
    stream.foldl (step2W ops k) (initW g) = stream.foldl (step1W ops k) (initW g) ∧
    getResultW (stream.foldl (step2W ops k) (initW g)) =
      getResultW (stream.foldl (step1W ops k) (initW g)) := by
  have h := foldl_peek_eq ops k stream (initW g) hw (fun _ => rfl)
  exact ⟨h, congrArg getResultW h⟩

/-- Witness for C5: the amended round-trip evaluated on a concrete two-element
stream with weights `1` and `0`. -/
theorem peek_roundtrip_witness :
    (∀ p ∈ [((1 : ℚ), (5 : ℕ)), (0, 6)], 0 ≤ p.1) ∧
    ([((1 : ℚ), (5 : ℕ)), (0, 6)].foldl (step2W ops0 1) (initW g0) =
      [((1 : ℚ), (5 : ℕ)), (0, 6)].foldl (step1W ops0 1) (initW g0)) :=
  ⟨by decide, (peek_roundtrip ops0 1 ℕ [(1, 5), (0, 6)] g0 (by decide)).1⟩

